import Mathlib

/-!
Shallow embedding of `pendulum/period.py` (the `Period` class) and proofs of
the specified properties.

Points in time are modelled as integers: a single linear time coordinate on
which the collaborator point-in-time type provides ordering, subtraction and
calendar stepping.  For day-granularity claims the coordinate is read as a
day number (days since 1970-01-01); for elapsed-time claims it is read as the
coordinate whose differences are the elapsed seconds.  Calendar-unit stepping
is kept as an explicit function parameter where a claim quantifies over units.
-/

namespace PendulumPeriod

/-- The `Period` value as stored after `__new__` + `__init__`:
stored (possibly swapped) `start`/`end`, the `_invert` and `_absolute`
flags, and the flat-duration payload (`seconds`) computed in `__new__`. -/
structure Period where
  start : ℤ
  end_ : ℤ
  invert : Bool
  absolute : Bool
  seconds : ℤ
  deriving DecidableEq, Repr

/-- Embedding of `Period.__new__` + `Period.__init__`:
`invert = (start > end)` on the supplied order; if `absolute` and
`start > end` the endpoints are swapped before storing, and `__new__`
computes the payload `delta = end - start` after its own identical swap. -/
def mkPeriod (s e : ℤ) (absolute : Bool) : Period :=
  let invert : Bool := decide (e < s)
  let swap : Bool := absolute && invert
  { start := if swap then e else s
    end_ := if swap then s else e
    invert := invert
    absolute := absolute
    seconds := (if swap then s else e) - (if swap then e else s) }

/-- Embedding of `Period._getstate`: the serialized triple
`(start, end, absolute)`, with the endpoints swapped back when the period
is both inverted and absolute. -/
def getstate (p : Period) : ℤ × ℤ × Bool :=
  if p.invert && p.absolute then (p.end_, p.start, p.absolute)
  else (p.start, p.end_, p.absolute)

/-- Embedding of `Period.__neg__`: construct a new `Period` with the stored
endpoints reversed and the same `absolute` flag. -/
def neg (p : Period) : Period :=
  mkPeriod p.end_ p.start p.absolute

/-- One iteration of the loop in `Period.intersect`: skip the supplied period
when it does not overlap the running bounds (`period.end < start` or
`period.start > end`), otherwise record the intersection and tighten the
running bounds to `(max start period.start, min end period.end)`. -/
def intersectStep (acc : ℤ × ℤ × Bool) (q : Period) : ℤ × ℤ × Bool :=
  if q.end_ < acc.1 ∨ q.start > acc.2.1 then acc
  else (max acc.1 q.start, min acc.2.1 q.end_, true)

/-- Embedding of `Period.intersect`: fold the loop body over the supplied
periods starting from `(self.start, self.end, has_intersection=False)`;
return `none` (Python `None`) when no intersection was found, otherwise a new
`Period` over the final bounds, constructed with the default `absolute=False`. -/
def intersect (p : Period) (ps : List Period) : Option Period :=
  let r := ps.foldl intersectStep (p.start, p.end_, false)
  if r.2.2 then some (mkPeriod r.1 r.2.1 false) else none

/-- Specification-side view of the loop in `Period.intersect`: the sublist of
supplied periods that are kept (not skipped), where the skip test
`other.end < start or other.start > end` is evaluated against the running
bounds exactly as the loop does. -/
def keptPeriods : ℤ → ℤ → List Period → List Period
  | _, _, [] => []
  | s, e, q :: rest =>
    if q.end_ < s ∨ q.start > e then keptPeriods s e rest
    else q :: keptPeriods (max s q.start) (min e q.end_) rest

/-- Modelled from the spec: `BaseInterval._sign` of the flat-duration
collaborator (not under `src/`), which re-signs a magnitude to match the sign
of a value: `-1` for negative values, `1` otherwise. -/
def sign (v : ℤ) : ℤ := if v < 0 then -1 else 1

/-- Embedding of `Period.days_exclude_weeks`:
`abs(self._delta.days) % 7 * self._sign(self._days)`.  Here `deltaDays` stands
for the calendar-delta day component `self._delta.days` and `days` for the
total day count `self._days` of the flat-duration view, both produced by
collaborators outside `src/`. -/
def days_exclude_weeks (deltaDays days : ℤ) : ℤ :=
  |deltaDays| % 7 * sign days

/-- Modelled from the spec: the point-in-time collaborator's day-of-week value
for a day number (days since 1970-01-01, a Thursday): `0 = Sunday`, ...,
`6 = Saturday`. -/
def dayOfWeek (d : ℤ) : ℤ := (d + 4) % 7

/-- Modelled from the spec: the collaborator's weekday classification
(Monday through Friday). -/
def is_weekday (d : ℤ) : Bool := decide (1 ≤ dayOfWeek d ∧ dayOfWeek d ≤ 5)

/-- Modelled from the spec: the collaborator's weekend classification
(Saturday and Sunday). -/
def is_weekend (d : ℤ) : Bool := decide (dayOfWeek d = 0 ∨ dayOfWeek d = 6)

/-- The counting loop shared by `Period.in_weekdays` and
`Period.in_weekend_days` (`while start <= end: if pred(start): days += 1;
start = start.add(days=1)`), at day granularity. -/
def countDays (pred : ℤ → Bool) (s e : ℤ) : ℕ :=
  if h : s ≤ e then (if pred s then 1 else 0) + countDays pred (s + 1) e
  else 0
termination_by (e + 1 - s).toNat
decreasing_by omega

/-- The shared shape of `Period.in_weekdays` and `Period.in_weekend_days`:
walk from `end` to `start` and negate the count when the period is inverted
and not absolute, otherwise walk forward without negating. -/
def walkCount (pred : ℤ → Bool) (p : Period) : ℤ :=
  let back : Bool := !p.absolute && p.invert
  let s : ℤ := if back then p.end_ else p.start
  let e : ℤ := if back then p.start else p.end_
  (countDays pred s e : ℤ) * (if back then -1 else 1)

/-- Embedding of `Period.in_weekdays`, at day granularity (where
`start_of('day')` is the identity on day numbers). -/
def in_weekdays (p : Period) : ℤ := walkCount is_weekday p

/-- Embedding of `Period.in_weekend_days`, at day granularity. -/
def in_weekend_days (p : Period) : ℤ := walkCount is_weekend p

/-- The loop of `Period.xrange`: `A` is the collaborator's calendar stepping
from the fixed origin (`self.start.add(...)` or `self.start.subtract(...)`
with step count `i`), `op` the termination comparison.  The source loop is
unbounded; the embedding carries fuel, and `xrange` below supplies fuel
sufficient for every step the source loop performs. -/
def xrangeAux (A : ℤ → ℕ → ℤ) (op : ℤ → ℤ → Bool) (origin ed : ℤ) :
    ℕ → ℕ → ℤ → List ℤ
  | 0, _, _ => []
  | fuel + 1, i, cur =>
    if op cur ed then cur :: xrangeAux A op origin ed fuel (i + 1) (A origin i)
    else []

/-- Embedding of `Period.xrange` for a fixed unit: `Aadd` and `Asub` are the
collaborator's `add` and `subtract` of `i` units from a point (modelled from
the spec, since the point-in-time type is not under `src/`); direction and
comparison are selected as in the source: `subtract` and `>=` iff
`not self._absolute and self.invert`, otherwise `add` and `<=`. -/
def xrange (Aadd Asub : ℤ → ℕ → ℤ) (p : Period) : List ℤ :=
  if !p.absolute && p.invert then
    xrangeAux Asub (fun c ed => decide (ed ≤ c)) p.start p.end_
      ((p.start - p.end_).toNat + 1) 1 p.start
  else
    xrangeAux Aadd (fun c ed => decide (c ≤ ed)) p.start p.end_
      ((p.end_ - p.start).toNat + 1) 1 p.start

/-- Modelled from the spec: the collaborator's `add(days=i)` on day numbers. -/
def addDays (o : ℤ) (i : ℕ) : ℤ := o + i

/-- Modelled from the spec: the collaborator's `subtract(days=i)` on day
numbers. -/
def subDays (o : ℤ) (i : ℕ) : ℤ := o - i

/-- Modelled from the spec: the day number (days since 1970-01-01) of a
Gregorian civil date, mapping the collaborator's date values onto the day
coordinate (the standard era-based civil calendar arithmetic). -/
def days_from_civil (y m d : ℤ) : ℤ :=
  let ya := if m ≤ 2 then y - 1 else y
  let era := (if 0 ≤ ya then ya else ya - 399) / 400
  let yoe := ya - era * 400
  let mp := (m + 9) % 12
  let doy := (153 * mp + 2) / 5 + d - 1
  let doe := yoe * 365 + yoe / 4 - yoe / 100 + doy
  era * 146097 + doe - 719468

theorem mkPeriod_start_le_end (s e : ℤ) :
    (mkPeriod s e true).start ≤ (mkPeriod s e true).end_ := by
  simp only [mkPeriod, Bool.true_and]
  by_cases h : e < s
  · simp [h]; omega
  · simp [h]; omega

theorem foldl_intersectStep_eq (ps : List Period) : ∀ (s e : ℤ) (h : Bool),
    ps.foldl intersectStep (s, e, h)
      = (((keptPeriods s e ps).map Period.start).foldl max s,
         ((keptPeriods s e ps).map Period.end_).foldl min e,
         h || !(keptPeriods s e ps).isEmpty) := by
  induction ps with
  | nil => intro s e h; simp [keptPeriods]
  | cons q rest ih =>
    intro s e h
    by_cases hskip : q.end_ < s ∨ q.start > e
    · simp only [List.foldl, intersectStep, if_pos hskip, keptPeriods, ih]
    · simp only [List.foldl, intersectStep, if_neg hskip, keptPeriods, ih,
        List.map, List.foldl_cons, List.isEmpty_cons, Bool.not_false,
        Bool.or_true, Bool.true_or]

theorem foldl_intersectStep_ordered (ps : List Period) : ∀ (s e : ℤ) (b : Bool),
    (∀ x ∈ ps, x.start ≤ x.end_) → s ≤ e →
    (ps.foldl intersectStep (s, e, b)).1 ≤ (ps.foldl intersectStep (s, e, b)).2.1 := by
  induction ps with
  | nil => intro s e b _ hse; simpa using hse
  | cons q rest ih =>
    intro s e b hall hse
    have hq : q.start ≤ q.end_ := hall q (by simp)
    have hrest : ∀ x ∈ rest, x.start ≤ x.end_ := fun x hx => hall x (by simp [hx])
    by_cases hskip : q.end_ < s ∨ q.start > e
    · simpa only [List.foldl, intersectStep, if_pos hskip] using ih s e b hrest hse
    · have hbounds : max s q.start ≤ min e q.end_ := by
        push_neg at hskip
        omega
      simpa only [List.foldl, intersectStep, if_neg hskip]
        using ih (max s q.start) (min e q.end_) true hrest hbounds

theorem mkPeriod_false_start (s e : ℤ) : (mkPeriod s e false).start = s := rfl

theorem mkPeriod_false_end (s e : ℤ) : (mkPeriod s e false).end_ = e := rfl

theorem mkPeriod_absolute (s e : ℤ) (a : Bool) : (mkPeriod s e a).absolute = a := rfl

/-- C5: `intersect` with zero supplied periods yields `none`; it yields `none`
exactly when no supplied period survives the running-bounds skip test; and when
it yields a `Period`, that `Period` spans `[max of kept starts, min of kept
ends]` (the receiver's own bounds included), constructed with
`absolute=false`. -/
theorem c5_intersect_fold (p : Period) (ps : List Period) :
    intersect p [] = none
    ∧ (intersect p ps = none ↔ keptPeriods p.start p.end_ ps = [])
    ∧ (∀ q : Period, intersect p ps = some q →
        q = mkPeriod
          (((keptPeriods p.start p.end_ ps).map Period.start).foldl max p.start)
          (((keptPeriods p.start p.end_ ps).map Period.end_).foldl min p.end_)
          false) := by
  refine ⟨by simp [intersect], ?_, ?_⟩
  · simp only [intersect, foldl_intersectStep_eq, Bool.false_or]
    by_cases hk : (keptPeriods p.start p.end_ ps).isEmpty
    · simp [hk, List.isEmpty_iff.mp hk]
    · simp only [hk, Bool.not_false, if_pos]
      constructor
      · intro hcontra; exact absurd hcontra (by simp)
      · intro hnil; exact absurd (by simp [hnil] : (keptPeriods p.start p.end_ ps).isEmpty) hk
  · intro q hq
    simp only [intersect, foldl_intersectStep_eq, Bool.false_or] at hq
    by_cases hk : (keptPeriods p.start p.end_ ps).isEmpty
    · simp [hk] at hq
    · simp only [hk, Bool.not_false, if_pos, Option.some.injEq] at hq
      exact hq.symm

/-- C5 witness: a one-element overlap instantiating the fold characterization. -/
theorem c5_intersect_fold_witness :
    intersect (mkPeriod 0 10 false) [mkPeriod 2 8 false] = some (mkPeriod 2 8 false)
    ∧ mkPeriod 2 8 false
      = mkPeriod
        (((keptPeriods (mkPeriod 0 10 false).start (mkPeriod 0 10 false).end_
            [mkPeriod 2 8 false]).map Period.start).foldl max (mkPeriod 0 10 false).start)
        (((keptPeriods (mkPeriod 0 10 false).start (mkPeriod 0 10 false).end_
            [mkPeriod 2 8 false]).map Period.end_).foldl min (mkPeriod 0 10 false).end_)
        false :=
  ⟨by decide,
   (c5_intersect_fold (mkPeriod 0 10 false) [mkPeriod 2 8 false]).2.2
     (mkPeriod 2 8 false) (by decide)⟩

/-- C8: whenever `intersect` returns a `Period`, that `Period` was constructed
with `absolute=false`, regardless of the receiver's or the supplied periods'
absolute flags. -/
theorem c8_intersect_result_not_absolute (p : Period) (ps : List Period)
    (q : Period) (h : intersect p ps = some q) : q.absolute = false := by
  simp only [intersect] at h
  by_cases hflag : (ps.foldl intersectStep (p.start, p.end_, false)).2.2
  · simp only [hflag, if_pos, Option.some.injEq] at h
    rw [← h, mkPeriod_absolute]
  · simp [hflag] at h

/-- C8 witness: both the receiver and the supplied period are absolute, yet the
intersection result has `absolute = false`. -/
theorem c8_intersect_result_not_absolute_witness :
    (mkPeriod 2 8 false).absolute = false :=
  c8_intersect_result_not_absolute (mkPeriod 0 10 true) [mkPeriod 2 8 true]
    (mkPeriod 2 8 false) (by decide)

/-- C10: if the receiver and all supplied periods satisfy `start ≤ end`, then
any `Period` returned by `intersect` satisfies `start ≤ end` and has
`invert = false`; and a zero-length touching overlap (`other.end == start` or
`other.start == end`) counts as an intersection and yields the corresponding
zero-length `Period`. -/
theorem c10_intersect_ordered (p r : Period) (ps : List Period) (q : Period)
    (hp : p.start ≤ p.end_) (hps : ∀ x ∈ ps, x.start ≤ x.end_)
    (hr : r.start ≤ r.end_) :
    (intersect p ps = some q → q.start ≤ q.end_ ∧ q.invert = false)
    ∧ (r.end_ = p.start → intersect p [r] = some (mkPeriod p.start p.start false))
    ∧ (r.start = p.end_ → intersect p [r] = some (mkPeriod p.end_ p.end_ false)) := by
  refine ⟨?_, ?_, ?_⟩
  · intro h
    have hord := foldl_intersectStep_ordered ps p.start p.end_ false hps hp
    simp only [intersect] at h
    by_cases hflag : (ps.foldl intersectStep (p.start, p.end_, false)).2.2
    · simp only [hflag, if_pos, Option.some.injEq] at h
      subst h
      refine ⟨by simpa [mkPeriod_false_start, mkPeriod_false_end] using hord, ?_⟩
      simp only [mkPeriod]
      simp [not_lt.mpr hord]
    · simp [hflag] at h
  · intro htouch
    have hskip : ¬ (r.end_ < p.start ∨ r.start > p.end_) := by omega
    simp only [intersect, List.foldl, intersectStep, if_neg hskip, if_pos]
    have h1 : max p.start r.start = p.start := by omega
    have h2 : min p.end_ r.end_ = p.start := by omega
    rw [h1, h2]
  · intro htouch
    have hskip : ¬ (r.end_ < p.start ∨ r.start > p.end_) := by omega
    simp only [intersect, List.foldl, intersectStep, if_neg hskip, if_pos]
    have h1 : max p.start r.start = p.end_ := by omega
    have h2 : min p.end_ r.end_ = p.end_ := by omega
    rw [h1, h2]

/-- C10 witness: receiver `[0, 6]` and supplied period `[6, 9]` touch at `6`,
giving the zero-length intersection `[6, 6]` with `invert = false`. -/
theorem c10_intersect_ordered_witness :
    ((intersect (mkPeriod 0 6 false) [mkPeriod 6 9 false]
        = some (mkPeriod 6 6 false) →
      (mkPeriod 6 6 false).start ≤ (mkPeriod 6 6 false).end_
      ∧ (mkPeriod 6 6 false).invert = false)
    ∧ ((mkPeriod 6 9 false).end_ = (mkPeriod 0 6 false).start →
        intersect (mkPeriod 0 6 false) [mkPeriod 6 9 false]
          = some (mkPeriod (mkPeriod 0 6 false).start
              (mkPeriod 0 6 false).start false))
    ∧ ((mkPeriod 6 9 false).start = (mkPeriod 0 6 false).end_ →
        intersect (mkPeriod 0 6 false) [mkPeriod 6 9 false]
          = some (mkPeriod (mkPeriod 0 6 false).end_
              (mkPeriod 0 6 false).end_ false))) :=
  c10_intersect_ordered (mkPeriod 0 6 false) (mkPeriod 6 9 false)
    [mkPeriod 6 9 false] (mkPeriod 6 6 false)
    (by decide) (by decide) (by decide)

/-- C1 (counterexample): the claim quantifies over all endpoints `a ≤ b` and
asserts `Period(b, a).invert == true`; at `a = b = 0` the constructor computes
`invert = (start > end) = false`, refuting the claim as stated. -/
theorem c1_invert_counterexample :
    (0 : ℤ) ≤ 0 ∧ ¬ ((mkPeriod (0 : ℤ) 0 false).invert = true) := by
  decide

/-- C1 (amended): for all `a ≤ b`, `Period(a, b).invert = false`; for `a < b`
(strictly), `Period(b, a).invert = true`; `Period(b, a, absolute=true)` stores
`start = a` and `end = b`; and every `Period` constructed with `absolute=true`
satisfies `start ≤ end`. -/
theorem c1_constructor_normalization (a b : ℤ) (h : a ≤ b) :
    (mkPeriod a b false).invert = false
    ∧ (a < b → (mkPeriod b a false).invert = true)
    ∧ (mkPeriod b a true).start = a ∧ (mkPeriod b a true).end_ = b
    ∧ (∀ s e : ℤ, (mkPeriod s e true).start ≤ (mkPeriod s e true).end_) := by
  refine ⟨?_, ?_, ?_, ?_, fun s e => mkPeriod_start_le_end s e⟩
  · simp only [mkPeriod]
    simp [not_lt.mpr h]
  · intro hlt
    simp only [mkPeriod]
    simp [hlt]
  · simp only [mkPeriod, Bool.true_and]
    by_cases hlt : a < b
    · simp [hlt]
    · have : a = b := le_antisymm h (not_lt.mp hlt)
      simp [this]
  · simp only [mkPeriod, Bool.true_and]
    by_cases hlt : a < b
    · simp [hlt]
    · have : a = b := le_antisymm h (not_lt.mp hlt)
      simp [this]

/-- C1 witness: the amended statement instantiated at `a = 0`, `b = 1`. -/
theorem c1_constructor_normalization_witness :
    (0 : ℤ) ≤ 1
    ∧ ((mkPeriod (0 : ℤ) 1 false).invert = false
      ∧ ((0 : ℤ) < 1 → (mkPeriod (1 : ℤ) 0 false).invert = true)
      ∧ (mkPeriod (1 : ℤ) 0 true).start = 0 ∧ (mkPeriod (1 : ℤ) 0 true).end_ = 1
      ∧ (∀ s e : ℤ, (mkPeriod s e true).start ≤ (mkPeriod s e true).end_)) :=
  ⟨by decide, c1_constructor_normalization 0 1 (by decide)⟩

/-- C2 (counterexample): the claim asserts the stored payload always equals
`end - start` over the originally supplied order, even with `absolute=true`;
at `start = 1, end = 0, absolute=true` the code swaps before subtracting and
stores `1`, not `0 - 1 = -1`. -/
theorem c2_seconds_counterexample :
    ¬ ((mkPeriod (1 : ℤ) 0 true).seconds = 0 - 1) := by
  decide

/-- C2 (amended): the stored payload equals `end - start` over the supplied
order when `absolute=false` or `start ≤ end`; when `absolute=true` the swap
in `__new__` happens first, so the payload is `|end - start|` (positive for
a reversed supplied order, not negative). -/
theorem c2_seconds_payload (s e : ℤ) (a : Bool) :
    ((a = false ∨ s ≤ e) → (mkPeriod s e a).seconds = e - s)
    ∧ (a = true → (mkPeriod s e a).seconds = |e - s|) := by
  constructor
  · rintro (rfl | hle)
    · simp [mkPeriod]
    · simp only [mkPeriod]
      have : ¬ (e < s) := not_lt.mpr hle
      simp [this]
  · rintro rfl
    simp only [mkPeriod, Bool.true_and]
    by_cases h : e < s
    · simp [h]
      rw [abs_of_neg (by omega : e - s < 0)]
      ring
    · simp [h]
      rw [abs_of_nonneg (by omega : (0 : ℤ) ≤ e - s)]

/-- C2 witness: payload at `start = 0, end = 5, absolute=false` is `5 - 0`. -/
theorem c2_seconds_payload_witness :
    (mkPeriod (0 : ℤ) 5 false).seconds = 5 - 0 :=
  (c2_seconds_payload 0 5 false).1 (Or.inl rfl)

/-- C3: reconstructing a `Period` from the serialized triple
`(effective_start, effective_end, absolute)` produced by `_getstate` yields a
`Period` with identical `start`, `end`, `invert` and `absolute`, for every
endpoint order and every value of the absolute flag. -/
theorem c3_serialization_round_trip (s e : ℤ) (a : Bool) :
    (mkPeriod (getstate (mkPeriod s e a)).1 (getstate (mkPeriod s e a)).2.1
        (getstate (mkPeriod s e a)).2.2).start = (mkPeriod s e a).start
    ∧ (mkPeriod (getstate (mkPeriod s e a)).1 (getstate (mkPeriod s e a)).2.1
        (getstate (mkPeriod s e a)).2.2).end_ = (mkPeriod s e a).end_
    ∧ (mkPeriod (getstate (mkPeriod s e a)).1 (getstate (mkPeriod s e a)).2.1
        (getstate (mkPeriod s e a)).2.2).invert = (mkPeriod s e a).invert
    ∧ (mkPeriod (getstate (mkPeriod s e a)).1 (getstate (mkPeriod s e a)).2.1
        (getstate (mkPeriod s e a)).2.2).absolute = (mkPeriod s e a).absolute := by
  cases a <;> by_cases h : e < s <;>
    simp_all [mkPeriod, getstate, not_lt.mp, le_antisymm_iff]

/-- C9: negating a `Period` constructed with `absolute=true` yields a `Period`
with the same stored `start` and `end`: the constructor swap undoes the
endpoint reversal performed by `__neg__`. -/
theorem c9_neg_absolute_fixed (s e : ℤ) :
    (neg (mkPeriod s e true)).start = (mkPeriod s e true).start
    ∧ (neg (mkPeriod s e true)).end_ = (mkPeriod s e true).end_ := by
  by_cases h : e < s
  · simp_all [mkPeriod, neg]
  · simp_all [mkPeriod, neg]
    omega

/-- C7: `days_exclude_weeks` is the absolute value of the calendar-delta day
component modulo 7, re-signed to match the sign of `days`; consequently its
magnitude is always in `[0, 6]`. -/
theorem c7_days_exclude_weeks_bounds (deltaDays days : ℤ) :
    days_exclude_weeks deltaDays days = |deltaDays| % 7 * sign days
    ∧ |days_exclude_weeks deltaDays days| = |deltaDays| % 7
    ∧ |days_exclude_weeks deltaDays days| ≤ 6 := by
  have hm0 : 0 ≤ |deltaDays| % 7 := Int.emod_nonneg _ (by norm_num)
  have hm7 : |deltaDays| % 7 < 7 := Int.emod_lt_of_pos _ (by norm_num)
  have hmag : |days_exclude_weeks deltaDays days| = |deltaDays| % 7 := by
    unfold days_exclude_weeks sign
    by_cases h : days < 0
    · rw [if_pos h, mul_neg_one, abs_neg, abs_of_nonneg hm0]
    · rw [if_neg h, mul_one, abs_of_nonneg hm0]
  exact ⟨rfl, hmag, by omega⟩

theorem Icc_int_insert (s e : ℤ) (h : s ≤ e) :
    Finset.Icc s e = insert s (Finset.Icc (s + 1) e) := by
  ext x
  simp only [Finset.mem_Icc, Finset.mem_insert]
  omega

theorem countDays_eq_card (pred : ℤ → Bool) (e : ℤ) : ∀ (n : ℕ) (s : ℤ),
    (e + 1 - s).toNat = n →
    countDays pred s e
      = ((Finset.Icc s e).filter (fun d => pred d = true)).card := by
  intro n
  induction n with
  | zero =>
    intro s hs
    have hse : ¬ s ≤ e := by omega
    rw [countDays]
    simp [hse, Finset.Icc_eq_empty hse]
  | succ n ih =>
    intro s hs
    by_cases hse : s ≤ e
    · rw [countDays]
      simp only [hse, dite_true]
      rw [Icc_int_insert s e hse, Finset.filter_insert]
      have hrec : countDays pred (s + 1) e
          = ((Finset.Icc (s + 1) e).filter (fun d => pred d = true)).card :=
        ih (s + 1) (by omega)
      have hnotmem : s ∉ (Finset.Icc (s + 1) e).filter (fun d => pred d = true) := by
        intro hmem
        simp only [Finset.mem_filter, Finset.mem_Icc] at hmem
        exact absurd hmem.1.1 (by omega)
      by_cases hp : pred s = true
      · simp only [hp, if_true, Finset.card_insert_of_not_mem hnotmem, hrec]
        omega
      · have hp2 : pred s = false := by simpa using hp
        simp [hp2, hrec]
    · rw [countDays]
      simp [hse, Finset.Icc_eq_empty hse]

theorem countDays_single (pred : ℤ → Bool) (a : ℤ) :
    countDays pred a a = if pred a then 1 else 0 := by
  rw [countDays]
  simp only [le_refl, dite_true]
  rw [countDays]
  simp [show ¬ (a + 1 ≤ a) by omega]

theorem weekday_add_weekend (d : ℤ) :
    (if is_weekday d then (1 : ℤ) else 0) + (if is_weekend d then 1 else 0) = 1 := by
  have h0 : 0 ≤ (d + 4) % 7 := Int.emod_nonneg _ (by norm_num)
  have h7 : (d + 4) % 7 < 7 := Int.emod_lt_of_pos _ (by norm_num)
  by_cases h : 1 ≤ (d + 4) % 7 ∧ (d + 4) % 7 ≤ 5
  · have hwd : is_weekday d = true := by
      simp only [is_weekday, dayOfWeek, decide_eq_true_eq]
      exact h
    have hwe : is_weekend d = false := by
      simp only [is_weekend, dayOfWeek, decide_eq_false_iff_not]
      omega
    simp [hwd, hwe]
  · have hwd : is_weekday d = false := by
      simp only [is_weekday, dayOfWeek, decide_eq_false_iff_not]
      omega
    have hwe : is_weekend d = true := by
      simp only [is_weekend, dayOfWeek, decide_eq_true_eq]
      omega
    simp [hwd, hwe]

theorem walkCount_forward (pred : ℤ → Bool) (a b : ℤ) (hab : a ≤ b) :
    walkCount pred (mkPeriod a b false) = (countDays pred a b : ℤ) := by
  have hinv : (mkPeriod a b false).invert = false := by
    simp only [mkPeriod, decide_eq_false_iff_not]
    omega
  simp [walkCount, hinv, mkPeriod_false_start, mkPeriod_false_end]

theorem walkCount_backward (pred : ℤ → Bool) (a b : ℤ) (hab : a < b) :
    walkCount pred (mkPeriod b a false) = -(countDays pred a b : ℤ) := by
  have hinv : (mkPeriod b a false).invert = true := by
    simp only [mkPeriod, decide_eq_true_eq]
    omega
  simp [walkCount, hinv, mkPeriod_false_start, mkPeriod_false_end, mkPeriod_absolute]

/-- C6: over day-granularity endpoints `a ≤ b`, `in_weekdays` and
`in_weekend_days` count days inclusively from `a` through `b` (so a
single-day period counts exactly `1` in whichever category that day falls),
and for a non-absolute inverted period (`a < b`, endpoints supplied reversed)
the counts are negated with unchanged magnitude. -/
theorem c6_weekday_weekend_counts (a b : ℤ) (hab : a ≤ b) :
    in_weekdays (mkPeriod a b false)
      = (((Finset.Icc a b).filter (fun d => is_weekday d = true)).card : ℤ)
    ∧ in_weekend_days (mkPeriod a b false)
      = (((Finset.Icc a b).filter (fun d => is_weekend d = true)).card : ℤ)
    ∧ (a = b → in_weekdays (mkPeriod a b false)
        + in_weekend_days (mkPeriod a b false) = 1)
    ∧ (a < b →
        in_weekdays (mkPeriod b a false) = - in_weekdays (mkPeriod a b false)
        ∧ in_weekend_days (mkPeriod b a false)
            = - in_weekend_days (mkPeriod a b false)) := by
  refine ⟨?_, ?_, ?_, ?_⟩
  · rw [show in_weekdays (mkPeriod a b false) = walkCount is_weekday (mkPeriod a b false) from rfl,
      walkCount_forward is_weekday a b hab,
      countDays_eq_card is_weekday b (b + 1 - a).toNat a rfl]
  · rw [show in_weekend_days (mkPeriod a b false) = walkCount is_weekend (mkPeriod a b false) from rfl,
      walkCount_forward is_weekend a b hab,
      countDays_eq_card is_weekend b (b + 1 - a).toNat a rfl]
  · intro heq
    subst heq
    rw [show in_weekdays (mkPeriod a a false) = walkCount is_weekday (mkPeriod a a false) from rfl,
      show in_weekend_days (mkPeriod a a false) = walkCount is_weekend (mkPeriod a a false) from rfl,
      walkCount_forward is_weekday a a le_rfl, walkCount_forward is_weekend a a le_rfl,
      countDays_single, countDays_single]
    push_cast
    exact weekday_add_weekend a
  · intro hlt
    constructor
    · rw [show in_weekdays (mkPeriod b a false) = walkCount is_weekday (mkPeriod b a false) from rfl,
        show in_weekdays (mkPeriod a b false) = walkCount is_weekday (mkPeriod a b false) from rfl,
        walkCount_backward is_weekday a b hlt, walkCount_forward is_weekday a b hab]
    · rw [show in_weekend_days (mkPeriod b a false) = walkCount is_weekend (mkPeriod b a false) from rfl,
        show in_weekend_days (mkPeriod a b false) = walkCount is_weekend (mkPeriod a b false) from rfl,
        walkCount_backward is_weekend a b hlt, walkCount_forward is_weekend a b hab]

/-- C6 witness: the single day 2023-06-01 (a Thursday) and the two-day span
through 2023-06-02. -/
theorem c6_weekday_weekend_counts_witness :
    days_from_civil 2023 6 1 ≤ days_from_civil 2023 6 2
    ∧ (in_weekdays (mkPeriod (days_from_civil 2023 6 1) (days_from_civil 2023 6 2) false)
        = (((Finset.Icc (days_from_civil 2023 6 1) (days_from_civil 2023 6 2)).filter
            (fun d => is_weekday d = true)).card : ℤ)
      ∧ in_weekend_days (mkPeriod (days_from_civil 2023 6 1) (days_from_civil 2023 6 2) false)
        = (((Finset.Icc (days_from_civil 2023 6 1) (days_from_civil 2023 6 2)).filter
            (fun d => is_weekend d = true)).card : ℤ)
      ∧ (days_from_civil 2023 6 1 = days_from_civil 2023 6 2 →
          in_weekdays (mkPeriod (days_from_civil 2023 6 1) (days_from_civil 2023 6 2) false)
          + in_weekend_days (mkPeriod (days_from_civil 2023 6 1) (days_from_civil 2023 6 2) false) = 1)
      ∧ (days_from_civil 2023 6 1 < days_from_civil 2023 6 2 →
          in_weekdays (mkPeriod (days_from_civil 2023 6 2) (days_from_civil 2023 6 1) false)
            = - in_weekdays (mkPeriod (days_from_civil 2023 6 1) (days_from_civil 2023 6 2) false)
          ∧ in_weekend_days (mkPeriod (days_from_civil 2023 6 2) (days_from_civil 2023 6 1) false)
            = - in_weekend_days (mkPeriod (days_from_civil 2023 6 1) (days_from_civil 2023 6 2) false))) :=
  ⟨by decide,
   c6_weekday_weekend_counts (days_from_civil 2023 6 1) (days_from_civil 2023 6 2) (by decide)⟩

theorem xrangeAux_get_eq (A : ℤ → ℕ → ℤ) (op : ℤ → ℤ → Bool) (a b : ℤ) :
    ∀ (fuel k i : ℕ), i < (xrangeAux A op a b fuel (k + 1) (A a k)).length →
      (xrangeAux A op a b fuel (k + 1) (A a k)).get? i = some (A a (k + i)) := by
  intro fuel
  induction fuel with
  | zero =>
    intro k i hi
    simp [xrangeAux] at hi
  | succ fuel ih =>
    intro k i hi
    by_cases hop : op (A a k) b
    · have hrw : xrangeAux A op a b (fuel + 1) (k + 1) (A a k)
          = A a k :: xrangeAux A op a b fuel (k + 1 + 1) (A a (k + 1)) := by
        simp [xrangeAux, hop]
      rw [hrw] at hi ⊢
      cases i with
      | zero => simp
      | succ i =>
        rw [List.get?_cons_succ, ih (k + 1) i (by simpa using hi)]
        rw [Nat.add_right_comm, Nat.add_assoc]
    · simp [xrangeAux, hop] at hi

theorem xrangeAux_mem_op (A : ℤ → ℕ → ℤ) (op : ℤ → ℤ → Bool) (a b : ℤ) :
    ∀ (fuel i : ℕ) (cur x : ℤ), x ∈ xrangeAux A op a b fuel i cur → op x b = true := by
  intro fuel
  induction fuel with
  | zero => intro i cur x hx; simp [xrangeAux] at hx
  | succ fuel ih =>
    intro i cur x hx
    by_cases hop : op cur b
    · simp only [xrangeAux, hop, if_true, List.mem_cons] at hx
      rcases hx with rfl | hx
      · exact hop
      · exact ih _ _ _ hx
    · simp [xrangeAux, hop] at hx

theorem xrangeAux_mem (A : ℤ → ℕ → ℤ) (a b : ℤ)
    (hmono : ∀ j : ℕ, A a j < A a (j + 1)) :
    ∀ (fuel k i : ℕ), k ≤ i → A a i ≤ b → i - k < fuel →
      A a i ∈ xrangeAux A (fun c ed => decide (c ≤ ed)) a b fuel (k + 1) (A a k) := by
  intro fuel
  induction fuel with
  | zero =>
    intro k i _ _ hf
    exact absurd hf (by omega)
  | succ fuel ih =>
    intro k i hki hile hfuel
    have hkle : A a k ≤ b :=
      le_trans ((strictMono_nat_of_lt_succ hmono).monotone hki) hile
    have hop : decide (A a k ≤ b) = true := decide_eq_true hkle
    simp only [xrangeAux, hop, if_true, List.mem_cons]
    rcases Nat.eq_or_lt_of_le hki with rfl | hki2
    · exact Or.inl rfl
    · exact Or.inr (ih (k + 1) i hki2 hile (by omega))

theorem xrange_growth (A : ℤ → ℕ → ℤ) (a : ℤ) (h0 : A a 0 = a)
    (hmono : ∀ j : ℕ, A a j < A a (j + 1)) : ∀ j : ℕ, a + j ≤ A a j := by
  intro j
  induction j with
  | zero => simp [h0]
  | succ j ih =>
    have hj := hmono j
    omega

/-- C4: for every forward `Period` (`start ≤ end`) and every calendar unit
(modelled as the collaborator stepping `Aadd` from the fixed origin, strictly
increasing in the step count and adding nothing at step `0`), the `i`-th
yielded element of `xrange` is `start` plus `i` units computed from the fixed
origin, an element `start + i·unit` is yielded exactly when it is `≤ end`
(both ends inclusive when they land exactly on a step), and ranging
`Period(2023-01-01, 2023-01-05)` by days yields exactly the five dates
2023-01-01 through 2023-01-05. -/
theorem c4_range_iteration (Aadd Asub : ℤ → ℕ → ℤ) (a b : ℤ)
    (h0 : Aadd a 0 = a) (hmono : ∀ j : ℕ, Aadd a j < Aadd a (j + 1))
    (hab : a ≤ b) :
    (∀ (i : ℕ) (hi : i < (xrange Aadd Asub (mkPeriod a b false)).length),
        (xrange Aadd Asub (mkPeriod a b false)).get ⟨i, hi⟩ = Aadd a i)
    ∧ (∀ i : ℕ, Aadd a i ∈ xrange Aadd Asub (mkPeriod a b false) ↔ Aadd a i ≤ b)
    ∧ xrange addDays subDays
        (mkPeriod (days_from_civil 2023 1 1) (days_from_civil 2023 1 5) false)
      = [days_from_civil 2023 1 1, days_from_civil 2023 1 2,
         days_from_civil 2023 1 3, days_from_civil 2023 1 4,
         days_from_civil 2023 1 5] := by
  have hinv : (mkPeriod a b false).invert = false := by
    simp only [mkPeriod, decide_eq_false_iff_not]
    omega
  have hxr : xrange Aadd Asub (mkPeriod a b false)
      = xrangeAux Aadd (fun c ed => decide (c ≤ ed)) a b
          ((b - a).toNat + 1) (0 + 1) (Aadd a 0) := by
    simp [xrange, hinv, mkPeriod_false_start, mkPeriod_false_end,
      mkPeriod_absolute, h0]
  refine ⟨?_, ?_, by decide⟩
  · intro i hi
    have hi2 : i < (xrangeAux Aadd (fun c ed => decide (c ≤ ed)) a b
        ((b - a).toNat + 1) (0 + 1) (Aadd a 0)).length := by
      rw [← hxr]; exact hi
    have h1 : (xrange Aadd Asub (mkPeriod a b false)).get? i = some (Aadd a i) := by
      rw [hxr]
      simpa using xrangeAux_get_eq Aadd (fun c ed => decide (c ≤ ed)) a b
        ((b - a).toNat + 1) 0 i hi2
    have h2 := List.get?_eq_get hi
    exact Option.some_injective _ (h2.symm.trans h1)
  · intro i
    rw [hxr]
    constructor
    · intro hmem
      have := xrangeAux_mem_op Aadd (fun c ed => decide (c ≤ ed)) a b
        ((b - a).toNat + 1) (0 + 1) (Aadd a 0) (Aadd a i) hmem
      simpa using this
    · intro hle
      have hgrow := xrange_growth Aadd a h0 hmono i
      exact xrangeAux_mem Aadd a b hmono ((b - a).toNat + 1) 0 i
        (Nat.zero_le i) hle (by omega)

/-- C4 witness: day stepping over the period `[0, 2]` of day numbers. -/
theorem c4_range_iteration_witness :
    (∀ (i : ℕ) (hi : i < (xrange addDays subDays (mkPeriod 0 2 false)).length),
        (xrange addDays subDays (mkPeriod 0 2 false)).get ⟨i, hi⟩ = addDays 0 i)
    ∧ (∀ i : ℕ, addDays 0 i ∈ xrange addDays subDays (mkPeriod 0 2 false)
        ↔ addDays 0 i ≤ 2)
    ∧ xrange addDays subDays
        (mkPeriod (days_from_civil 2023 1 1) (days_from_civil 2023 1 5) false)
      = [days_from_civil 2023 1 1, days_from_civil 2023 1 2,
         days_from_civil 2023 1 3, days_from_civil 2023 1 4,
         days_from_civil 2023 1 5] :=
  c4_range_iteration addDays subDays 0 2 (by decide)
    (fun j => by simp only [addDays]; omega) (by decide)

end PendulumPeriod
